import Mathlib

/- Verification of the core of sampsonbryce/go-gameoflife (src/main.go).

   The Go program stores a generation as `map[string]*Cell`, keyed by the
   string `fmt.Sprintf("%d,%d", x, y)`.  The key function is injective
   (proved below), so a map state is faithfully represented by the list of
   its cell coordinates, with Go map assignment `m[key] = cell` modelled by
   `mapInsert` (a no-op on the coordinate set when the key is present,
   an append otherwise).  Go `int` is 64-bit and its addition wraps, so the
   neighbor-offset arithmetic of the scan loops is modelled by wrap64
   (reduction into [-2^63, 2^63)); coordinates themselves live on `Int`,
   with the int64 range made explicit in hypotheses where it matters.
   Go map iteration order is unspecified; functions that iterate a map
   take the enumeration as an explicit list parameter. -/

structure Cell where
  x : Int
  y : Int
deriving DecidableEq

/- The 8 Moore-neighborhood offsets in the order scanned by the Go nested
   loops (`for i := -1; i <= 1; i++ { for j := -1; j <= 1; j++ { ... } }`,
   skipping the center). -/
def neighborOffsets : List (Int × Int) :=
  [(-1, -1), (-1, 0), (-1, 1), (0, -1), (0, 1), (1, -1), (1, 0), (1, 1)]

/- Go 64-bit signed addition wraps; wrap64 reduces an integer into
   [-2^63, 2^63), so `x + i` on Go int is wrap64 (x + i) for x in range. -/
def wrap64 (n : Int) : Int :=
  (n + 9223372036854775808) % 18446744073709551616 - 9223372036854775808

/- src/main.go getCellNeighborCount: counts the live cells among the 8
   positions reached from (x, y) by the Moore offsets under Go's wrapping
   int64 addition (`currentX := x + i`). -/
def getCellNeighborCount (cellMap : List Cell) (x y : Int) : Nat :=
  (neighborOffsets.filter (fun o =>
    decide ((⟨wrap64 (x + o.1), wrap64 (y + o.2)⟩ : Cell) ∈ cellMap))).length

/- src/main.go shouldKillCell. -/
def shouldKillCell (cellMap : List Cell) (x y : Int) : Bool :=
  let neighborCount := getCellNeighborCount cellMap x y
  if neighborCount < 2 then true
  else if neighborCount > 3 then true
  else false

/- src/main.go shouldReviveCell. -/
def shouldReviveCell (cellMap : List Cell) (x y : Int) : Bool :=
  getCellNeighborCount cellMap x y == 3

/- Go map assignment `m[getCellKey c.x c.y] = c` at the coordinate level:
   overwriting an existing key leaves the coordinate set unchanged. -/
def mapInsert (m : List Cell) (c : Cell) : List Cell :=
  if c ∈ m then m else m ++ [c]

/- src/main.go reviveCells: for each of the 8 neighbors of `cell`, skip it
   if it is alive in currentMap or already present in newMap, otherwise add
   it to newMap when shouldReviveCell holds. -/
def reviveCells (currentMap newMap : List Cell) (cell : Cell) : List Cell :=
  neighborOffsets.foldl (fun acc o =>
    let currentX := wrap64 (cell.x + o.1)
    let currentY := wrap64 (cell.y + o.2)
    let c : Cell := ⟨currentX, currentY⟩
    if c ∈ currentMap then acc
    else if c ∈ acc then acc
    else if shouldReviveCell currentMap currentX currentY then mapInsert acc c
    else acc) newMap

/- src/main.go processCells: nil chunk slots (round-robin padding) are
   `none` and skipped; surviving cells are inserted, then births among the
   cell's neighbors are handled by reviveCells. -/
def processCells (currentMap newMap : List Cell) (cells : List (Option Cell)) : List Cell :=
  cells.foldl (fun acc oc =>
    match oc with
    | none => acc
    | some cell =>
      let acc2 := if !shouldKillCell currentMap cell.x cell.y then mapInsert acc cell else acc
      reviveCells currentMap acc2 cell) newMap

/- One iteration of the fill loop of src/main.go chunkCells: write the cell
   at slot chunkIndices[currentChunk] of chunks[currentChunk] (Go slices
   alias the backing array, so the write lands in `chunks`), bump that
   index, and advance currentChunk round-robin. -/
def chunkStep (chunkCount : Nat) (st : List (List (Option Cell)) × List Nat × Nat)
    (val : Cell) : List (List (Option Cell)) × List Nat × Nat :=
  let chunk := st.1.getD st.2.2 []
  let chunkIndex := st.2.1.getD st.2.2 0
  (st.1.set st.2.2 (chunk.set chunkIndex (some val)),
   st.2.1.set st.2.2 (chunkIndex + 1),
   (st.2.2 + 1) % chunkCount)

/- src/main.go chunkCells: chunkCount chunks of fixed size
   cellCount/chunkCount + 1, filled round-robin; unfilled slots stay nil. -/
def chunkCells (cellMap : List Cell) (chunkCount : Nat) : List (List (Option Cell)) :=
  let chunkSize := cellMap.length / chunkCount + 1
  (cellMap.foldl (chunkStep chunkCount)
    (List.replicate chunkCount (List.replicate chunkSize (none : Option Cell)),
     List.replicate chunkCount 0, 0)).1

/- The merge loop of src/main.go getNewCellMap:
   `for k, v := range chunkMap { newMap[k] = v }`. -/
def mergeChunkMap (newMap chunkMap : List Cell) : List Cell :=
  chunkMap.foldl mapInsert newMap

def WORKER_COUNT : Nat := 4

/- src/main.go getNewCellMap, with the worker count as a parameter (the Go
   code always passes the constant WORKER_COUNT).  Small generations take
   the single-chunk path; otherwise chunks are processed and their result
   maps merged (Go merges in completion order; the merged coordinate set is
   order independent, see the theorems below). -/
def getNewCellMap (currentMap : List Cell) (workerCount : Nat) : List Cell :=
  if currentMap.length < workerCount then
    processCells currentMap [] (currentMap.map some)
  else
    (chunkCells currentMap workerCount).foldl
      (fun newMap chunk => mergeChunkMap newMap (processCells currentMap [] chunk)) []

/- src/main.go copyCellMap. -/
def copyCellMap (cellMap : List Cell) : List Cell :=
  cellMap.foldl mapInsert []

/- The partitioning performed inside src/main.go getNewCellMap: below the
   worker count, a single chunk holding every cell; otherwise chunkCells. -/
def chunker (cellMap : List Cell) (workerCount : Nat) : List (List (Option Cell)) :=
  if cellMap.length < workerCount then [cellMap.map some] else chunkCells cellMap workerCount

/- Decimal rendering of a natural number, most significant digit first,
   as produced by Go fmt's %d verb. -/
def natToString (n : Nat) : String :=
  if n = 0 then String.mk ['0']
  else String.mk (((Nat.digits 10 n).reverse).map Nat.digitChar)

/- Decimal rendering of a Go int (minus sign then decimal digits). -/
def intToString (n : Int) : String :=
  if n < 0 then String.mk ['-'] ++ natToString n.natAbs else natToString n.toNat

/- src/main.go getCellKey: fmt.Sprintf("%d,%d", x, y). -/
def getCellKey (x y : Int) : String :=
  intToString x ++ String.mk [','] ++ intToString y

/- src/main.go GameState, restricted to the core field `paused`
   (window, viewport, cell size and draw buffers are rendering-only). -/
structure GameState where
  paused : Bool
deriving DecidableEq

/- src/main.go createGameState: paused starts true. -/
def createGameState : GameState := ⟨true⟩

/- startLoop reacting to KeyEnter: `state.paused = !state.paused`. -/
def togglePause (state : GameState) : GameState := ⟨!state.paused⟩

/- One clock fire of src/main.go startProcessLoop (the loop body after the
   sleep).  Returns the new value of nextMapToProcess and the list of
   generations sent on the channel during this tick. -/
def processLoopTick (state : GameState) (nextMapToProcess : Option (List Cell)) :
    Option (List Cell) × List (List Cell) :=
  if state.paused then (nextMapToProcess, [])
  else
    match nextMapToProcess with
    | none => (none, [])
    | some toProcess =>
      let newMap := getNewCellMap toProcess WORKER_COUNT
      (some (copyCellMap newMap), [copyCellMap newMap])

/- The capacity of the handoff channel created in src/main.go startLoop:
   `newMaps := make(chan map[string]*Cell, 1)`. -/
def newMapsCapacity : Nat := 1

/- Go semantics of a send on a buffered channel: enqueue when the buffer
   has free space, otherwise the send cannot proceed (`none` = the sender
   blocks).  Go never drops or overwrites a buffered value. -/
def chanSend (capacity : Nat) (buffer : List (List Cell)) (v : List Cell) :
    Option (List (List Cell)) :=
  if buffer.length < capacity then some (buffer ++ [v]) else none

/- Go semantics of the non-blocking receive performed by the
   select/default in src/main.go startLoop. -/
def chanTryRecv (buffer : List (List Cell)) : Option (List Cell) × List (List Cell) :=
  match buffer with
  | [] => (none, [])
  | v :: rest => (some v, rest)

/- strings.TrimSpace: drop whitespace from both ends. -/
def trimChars (l : List Char) : List Char :=
  ((l.dropWhile Char.isWhitespace).reverse.dropWhile Char.isWhitespace).reverse

/- strings.Split(s, " "): split at every single space, keeping empty
   fields; the result is never the empty list. -/
def splitChars (l : List Char) : List (List Char) :=
  l.foldr (fun c acc =>
    if c = ' ' then [] :: acc
    else match acc with
      | [] => [[c]]
      | t :: ts => (c :: t) :: ts) [[]]

/- Digit string to value, most significant digit first. -/
def digitsToNat (l : List Char) : Nat :=
  l.foldl (fun acc c => acc * 10 + (c.toNat - 48)) 0

def atoiNat (l : List Char) : Option Nat :=
  if l = [] then none
  else if l.all Char.isDigit then some (digitsToNat l)
  else none

def int64Min : Int := -(2 ^ 63)

def int64Max : Int := 2 ^ 63 - 1

/- strconv.Atoi: optional single sign, then a nonempty run of decimal
   digits, with an error when the value overflows a 64-bit int. -/
def atoiChars (l : List Char) : Option Int :=
  let signed : Option Int :=
    match l with
    | '-' :: rest => (atoiNat rest).map (fun n => -(n : Int))
    | '+' :: rest => (atoiNat rest).map (fun n => (n : Int))
    | _ => (atoiNat l).map (fun n => (n : Int))
  match signed with
  | none => none
  | some v => if int64Min ≤ v ∧ v ≤ int64Max then some v else none

/- Outcome of src/main.go readCoordinates: a returned error is `err`, and
   the out-of-range access `coords[1]` on a line without a space is the
   distinct runtime-panic outcome `indexPanic`. -/
inductive ReadResult where
  | ok (cells : List Cell)
  | err
  | indexPanic
deriving DecidableEq

def ReadResult.isOk : ReadResult → Bool
  | ReadResult.ok _ => true
  | _ => false

/- strings.Split(strings.TrimSpace(text), " ") on one input line. -/
def lineTokens (text : String) : List (List Char) :=
  splitChars (trimChars text.data)

/- src/main.go readCoordinates, one line at a time; stdin is the list of
   scanned lines.  coords[0] always exists (splitChars is never empty);
   coords[1] may not, in which case Go panics. -/
def readCoordinatesAux : List String → List Cell → ReadResult
  | [], cells => ReadResult.ok cells
  | text :: rest, cells =>
    let coords := lineTokens text
    match atoiChars (coords.getD 0 []) with
    | none => ReadResult.err
    | some x =>
      match coords[1]? with
      | none => ReadResult.indexPanic
      | some second =>
        match atoiChars second with
        | none => ReadResult.err
        | some y =>
          if (⟨x, y⟩ : Cell) ∈ cells then ReadResult.err
          else readCoordinatesAux rest (cells ++ [⟨x, y⟩])

def readCoordinates (lines : List String) : ReadResult :=
  readCoordinatesAux lines []

/- The pair a line contributes on the successful path of readCoordinates
   (mirrors the branch structure of readCoordinatesAux). -/
def lineCell (text : String) : Option Cell :=
  match atoiChars ((lineTokens text).getD 0 []) with
  | none => none
  | some x =>
    match (lineTokens text)[1]? with
    | none => none
    | some second =>
      match atoiChars second with
      | none => none
      | some y => some (⟨x, y⟩ : Cell)

/- strings.HasPrefix(text, "!"). -/
def isCommentLine (text : String) : Bool :=
  match text.data with
  | [] => false
  | c :: _ => c = '!'

/- The per-line loop of src/main.go readPattern: scan the runes, adding a
   live cell at (i, line) for each 'O' at rune index i. -/
def patternLineCells (cells : List Cell) (line : Int) (text : String) : List Cell :=
  (text.data.foldl (fun (st : List Cell × Int) char =>
    if char = 'O' then (mapInsert st.1 ⟨st.2, line⟩, st.2 + 1)
    else (st.1, st.2 + 1)) (cells, (0 : Int))).1

/- src/main.go readPattern: comment lines are skipped without consuming a
   row index; other lines are scanned and then the row index decreases. -/
def readPatternAux : List String → List Cell → Int → List Cell
  | [], cells, _ => cells
  | text :: rest, cells, line =>
    if isCommentLine text then readPatternAux rest cells line
    else readPatternAux rest (patternLineCells cells line text) (line - 1)

def readPattern (lines : List String) : List Cell :=
  readPatternAux lines [] 0

/- c is one of the (up to 8) neighbor positions scanned from cell by the
   Go loops (Moore offsets under wrapping int64 addition). -/
def adjacentTo (cell c : Cell) : Prop :=
  ∃ o ∈ neighborOffsets, c = (⟨wrap64 (cell.x + o.1), wrap64 (cell.y + o.2)⟩ : Cell)

/- Spec-side definition (refinement target for C5): membership in the
   Moore neighborhood of (x, y), in the words of the spec: offset at most
   one in each axis, excluding the center itself. -/
def mooreNeighbor (x y : Int) (c : Cell) : Prop :=
  (c.x - x).natAbs ≤ 1 ∧ (c.y - y).natAbs ≤ 1 ∧ c ≠ (⟨x, y⟩ : Cell)

instance (x y : Int) : DecidablePred (mooreNeighbor x y) := fun c => by
  unfold mooreNeighbor
  infer_instance

/- Spec-side definition: the plane (non-wrapping) Moore-offset neighbor
   count stated by the spec; it agrees with the program's wrapped count
   away from the int64 boundary, and differs at it. -/
def planeNeighborCount (cellMap : List Cell) (x y : Int) : Nat :=
  (neighborOffsets.filter (fun o => decide ((⟨x + o.1, y + o.2⟩ : Cell) ∈ cellMap))).length

/- Spec-side definition: membership in the set of 8 positions the program
   scans around (x, y), i.e. the Moore offsets under wrapping addition. -/
def wrappedMooreNeighbor (x y : Int) (c : Cell) : Prop :=
  ∃ o ∈ neighborOffsets, c = (⟨wrap64 (x + o.1), wrap64 (y + o.2)⟩ : Cell)

instance (x y : Int) : DecidablePred (wrappedMooreNeighbor x y) := fun c => by
  unfold wrappedMooreNeighbor
  infer_instance

/- Both coordinates of a cell lie in the Go int64 range (every cell the
   program ever manipulates does, by the type of Go int). -/
def cellInRange (c : Cell) : Prop :=
  int64Min ≤ c.x ∧ c.x ≤ int64Max ∧ int64Min ≤ c.y ∧ c.y ≤ int64Max

instance (c : Cell) : Decidable (cellInRange c) := by
  unfold cellInRange
  infer_instance

/- Number of cells among the first k (0-indexed) that the round-robin fill
   of chunkCells has handed to chunk c: cell number m goes to chunk m % W,
   so chunk c has received k / W cells, plus one more when c < k % W. -/
def rrIdx (W k c : Nat) : Nat :=
  k / W + (if c < k % W then 1 else 0)

/- Invariant of the fill loop of chunkCells after the cells in `done` have
   been distributed, for worker count W and fixed slice size chunkSize. -/
structure ChunkInv (W chunkSize : Nat) (done : List Cell)
    (st : List (List (Option Cell)) × List Nat × Nat) : Prop where
  chunks_len : st.1.length = W
  idx_len : st.2.1.length = W
  cur_eq : st.2.2 = done.length % W
  chunk_len : ∀ c, c < W → (st.1.getD c []).length = chunkSize
  idx_val : ∀ c, c < W → st.2.1.getD c 0 = rrIdx W done.length c
  tail_none : ∀ c, c < W → ∀ s, rrIdx W done.length c ≤ s →
    (st.1.getD c []).getD s none = none
  content : ((st.1.map (fun ch => ch.filterMap id)).flatten).Perm done

example : getCellNeighborCount [⟨0, 0⟩, ⟨1, 1⟩] 0 0 = 1 := by decide

example : getCellNeighborCount [⟨0, 0⟩, ⟨1, 1⟩] 5 5 = 0 := by decide

example : readCoordinates ["5"] = ReadResult.indexPanic := by decide

example : readCoordinates ["1 2 3"] = ReadResult.ok [⟨1, 2⟩] := by decide

example : readCoordinates ["1 2", "3 4"] = ReadResult.ok [⟨1, 2⟩, ⟨3, 4⟩] := by decide

example : readCoordinates ["1 2", "1 2"] = ReadResult.err := by decide

example : readCoordinates ["a 2"] = ReadResult.err := by decide

example :
    (getNewCellMap [⟨0, 0⟩, ⟨1, 0⟩, ⟨2, 0⟩] WORKER_COUNT).toFinset =
      ([⟨1, -1⟩, ⟨1, 0⟩, ⟨1, 1⟩] : List Cell).toFinset := by decide

example :
    (getNewCellMap [⟨0, 0⟩, ⟨1, 0⟩, ⟨0, 1⟩, ⟨1, 1⟩] WORKER_COUNT).toFinset =
      ([⟨0, 0⟩, ⟨1, 0⟩, ⟨0, 1⟩, ⟨1, 1⟩] : List Cell).toFinset := by decide

example : readPattern ["!c", ".O", "O"] = [⟨1, 0⟩, ⟨0, -1⟩] := by decide

theorem mem_mapInsert {m : List Cell} {a c : Cell} :
    c ∈ mapInsert m a ↔ c ∈ m ∨ c = a := by
  unfold mapInsert
  split
  · next h => exact ⟨Or.inl, fun hc => hc.elim id (fun e => e ▸ h)⟩
  · simp

theorem nodup_mapInsert {m : List Cell} (a : Cell) (h : m.Nodup) :
    (mapInsert m a).Nodup := by
  unfold mapInsert
  split
  · exact h
  · next hna => simp [List.nodup_append, h, hna]

theorem mem_reviveCells_fold (g : List Cell) (cell : Cell) (offs : List (Int × Int)) :
    ∀ (acc : List Cell) (c : Cell),
      (c ∈ offs.foldl (fun acc o =>
        let currentX := wrap64 (cell.x + o.1)
        let currentY := wrap64 (cell.y + o.2)
        let cc : Cell := ⟨currentX, currentY⟩
        if cc ∈ g then acc
        else if cc ∈ acc then acc
        else if shouldReviveCell g currentX currentY then mapInsert acc cc
        else acc) acc) ↔
      c ∈ acc ∨ ∃ o ∈ offs,
        c = (⟨wrap64 (cell.x + o.1), wrap64 (cell.y + o.2)⟩ : Cell) ∧ c ∉ g ∧
        shouldReviveCell g c.x c.y = true := by
  induction offs with
  | nil => simp
  | cons o rest ih =>
    intro acc c
    rw [List.foldl_cons, ih]
    have hstep : (c ∈
        (if (⟨wrap64 (cell.x + o.1), wrap64 (cell.y + o.2)⟩ : Cell) ∈ g then acc
         else if (⟨wrap64 (cell.x + o.1), wrap64 (cell.y + o.2)⟩ : Cell) ∈ acc then acc
         else if shouldReviveCell g (wrap64 (cell.x + o.1)) (wrap64 (cell.y + o.2)) then
           mapInsert acc ⟨wrap64 (cell.x + o.1), wrap64 (cell.y + o.2)⟩
         else acc)) ↔
        c ∈ acc ∨ (c = (⟨wrap64 (cell.x + o.1), wrap64 (cell.y + o.2)⟩ : Cell) ∧ c ∉ g ∧
          shouldReviveCell g c.x c.y = true) := by
      split_ifs with h1 h2 h3
      · constructor
        · exact Or.inl
        · rintro (h | ⟨rfl, hng, _⟩)
          · exact h
          · exact absurd h1 hng
      · constructor
        · exact Or.inl
        · rintro (h | ⟨rfl, _, _⟩)
          · exact h
          · exact h2
      · rw [mem_mapInsert]
        constructor
        · rintro (h | rfl)
          · exact Or.inl h
          · exact Or.inr ⟨rfl, h1, h3⟩
        · rintro (h | ⟨rfl, _, _⟩)
          · exact Or.inl h
          · exact Or.inr rfl
      · constructor
        · exact Or.inl
        · rintro (h | ⟨rfl, _, hrv⟩)
          · exact h
          · exact absurd hrv h3
    rw [hstep]
    constructor
    · rintro (⟨h | h⟩ | ⟨o', ho', h⟩)
      · exact Or.inl h
      · exact Or.inr ⟨o, List.mem_cons_self o rest, h⟩
      · exact Or.inr ⟨o', List.mem_cons_of_mem o ho', h⟩
    · rintro (h | ⟨o', ho', h⟩)
      · exact Or.inl (Or.inl h)
      · rcases List.mem_cons.mp ho' with rfl | ho'
        · exact Or.inl (Or.inr h)
        · exact Or.inr ⟨o', ho', h⟩

theorem mem_reviveCells {g acc : List Cell} {cell c : Cell} :
    c ∈ reviveCells g acc cell ↔
      c ∈ acc ∨ (adjacentTo cell c ∧ c ∉ g ∧ shouldReviveCell g c.x c.y = true) := by
  have h := mem_reviveCells_fold g cell neighborOffsets acc c
  unfold reviveCells
  rw [h]
  unfold adjacentTo
  constructor
  · rintro (h | ⟨o, ho, h1, h2, h3⟩)
    · exact Or.inl h
    · exact Or.inr ⟨⟨o, ho, h1⟩, h2, h3⟩
  · rintro (h | ⟨⟨o, ho, h1⟩, h2, h3⟩)
    · exact Or.inl h
    · exact Or.inr ⟨o, ho, h1, h2, h3⟩

theorem mem_processCells {g : List Cell} (chunk : List (Option Cell)) :
    ∀ (acc : List Cell) (c : Cell),
      c ∈ processCells g acc chunk ↔
        c ∈ acc ∨ ∃ cell : Cell, some cell ∈ chunk ∧
          ((c = cell ∧ shouldKillCell g cell.x cell.y = false) ∨
           (adjacentTo cell c ∧ c ∉ g ∧ shouldReviveCell g c.x c.y = true)) := by
  induction chunk with
  | nil => simp [processCells]
  | cons oc rest ih =>
    intro acc c
    have hcons : processCells g acc (oc :: rest) =
        processCells g
          (match oc with
           | none => acc
           | some cell =>
             reviveCells g
               (if !shouldKillCell g cell.x cell.y then mapInsert acc cell else acc) cell)
          rest := rfl
    rw [hcons]
    cases oc with
    | none =>
      rw [ih]
      constructor
      · rintro (h | ⟨cell, hm, h⟩)
        · exact Or.inl h
        · exact Or.inr ⟨cell, List.mem_cons_of_mem _ hm, h⟩
      · rintro (h | ⟨cell, hm, h⟩)
        · exact Or.inl h
        · rcases List.mem_cons.mp hm with heq | hm
          · exact absurd heq (by simp)
          · exact Or.inr ⟨cell, hm, h⟩
    | some cell =>
      rw [ih]
      have hacc : ∀ d : Cell,
          (d ∈ reviveCells g
            (if !shouldKillCell g cell.x cell.y then mapInsert acc cell else acc) cell) ↔
          d ∈ acc ∨ ((d = cell ∧ shouldKillCell g cell.x cell.y = false) ∨
            (adjacentTo cell d ∧ d ∉ g ∧ shouldReviveCell g d.x d.y = true)) := by
        intro d
        rw [mem_reviveCells]
        by_cases hk : shouldKillCell g cell.x cell.y = false
        · rw [if_pos (by simp [hk]), mem_mapInsert]
          constructor
          · rintro ((h | rfl) | h)
            · exact Or.inl h
            · exact Or.inr (Or.inl ⟨rfl, hk⟩)
            · exact Or.inr (Or.inr h)
          · rintro (h | (⟨rfl, _⟩ | h))
            · exact Or.inl (Or.inl h)
            · exact Or.inl (Or.inr rfl)
            · exact Or.inr h
        · rw [if_neg (by simpa using hk)]
          constructor
          · rintro (h | h)
            · exact Or.inl h
            · exact Or.inr (Or.inr h)
          · rintro (h | (⟨_, hkf⟩ | h))
            · exact Or.inl h
            · exact absurd hkf hk
            · exact Or.inr h
      constructor
      · rintro (h | ⟨cell', hm, h⟩)
        · rcases (hacc c).mp h with h | h
          · exact Or.inl h
          · exact Or.inr ⟨cell, List.mem_cons_self _ _, h⟩
        · exact Or.inr ⟨cell', List.mem_cons_of_mem _ hm, h⟩
      · rintro (h | ⟨cell', hm, h⟩)
        · exact Or.inl ((hacc c).mpr (Or.inl h))
        · rcases List.mem_cons.mp hm with heq | hm
          · have : cell' = cell := by simpa using heq
            subst this
            exact Or.inl ((hacc c).mpr (Or.inr h))
          · exact Or.inr ⟨cell', hm, h⟩

theorem mem_mergeChunkMap {a b : List Cell} {c : Cell} :
    c ∈ mergeChunkMap a b ↔ c ∈ a ∨ c ∈ b := by
  unfold mergeChunkMap
  induction b generalizing a with
  | nil => simp
  | cons d rest ih =>
    rw [List.foldl_cons, ih, mem_mapInsert]
    constructor
    · rintro ((h | rfl) | h)
      · exact Or.inl h
      · exact Or.inr (List.mem_cons_self _ _)
      · exact Or.inr (List.mem_cons_of_mem _ h)
    · rintro (h | h)
      · exact Or.inl (Or.inl h)
      · rcases List.mem_cons.mp h with rfl | h
        · exact Or.inl (Or.inr rfl)
        · exact Or.inr h

theorem nodup_reviveCells (g : List Cell) (cell : Cell) :
    ∀ {acc : List Cell}, acc.Nodup → (reviveCells g acc cell).Nodup := by
  unfold reviveCells
  generalize neighborOffsets = offs
  induction offs with
  | nil => intro acc h; simpa using h
  | cons o rest ih =>
    intro acc h
    rw [List.foldl_cons]
    apply ih
    dsimp only
    split_ifs
    · exact h
    · exact h
    · exact nodup_mapInsert _ h
    · exact h

theorem nodup_processCells (g : List Cell) (chunk : List (Option Cell)) :
    ∀ {acc : List Cell}, acc.Nodup → (processCells g acc chunk).Nodup := by
  induction chunk with
  | nil => intro acc h; simpa [processCells] using h
  | cons oc rest ih =>
    intro acc h
    have hcons : processCells g acc (oc :: rest) =
        processCells g
          (match oc with
           | none => acc
           | some cell =>
             reviveCells g
               (if !shouldKillCell g cell.x cell.y then mapInsert acc cell else acc) cell)
          rest := rfl
    rw [hcons]
    apply ih
    cases oc with
    | none => exact h
    | some cell =>
      apply nodup_reviveCells
      split_ifs
      · exact nodup_mapInsert _ h
      · exact h

theorem nodup_mergeChunkMap {a : List Cell} (b : List Cell) (h : a.Nodup) :
    (mergeChunkMap a b).Nodup := by
  unfold mergeChunkMap
  induction b generalizing a with
  | nil => simpa using h
  | cons d rest ih => exact ih (nodup_mapInsert _ h)

theorem nodup_getNewCellMap (m : List Cell) (workerCount : Nat) :
    (getNewCellMap m workerCount).Nodup := by
  unfold getNewCellMap
  split
  · exact nodup_processCells m _ List.nodup_nil
  · generalize chunkCells m workerCount = chunks
    have : ∀ (acc : List Cell), acc.Nodup →
        (chunks.foldl
          (fun newMap chunk => mergeChunkMap newMap (processCells m [] chunk)) acc).Nodup := by
      induction chunks with
      | nil => intro acc h; simpa using h
      | cons ch rest ih =>
        intro acc h
        rw [List.foldl_cons]
        exact ih _ (nodup_mergeChunkMap _ h)
    exact this [] List.nodup_nil

theorem mem_foldl_merge (g : List Cell) (chunks : List (List (Option Cell))) :
    ∀ (acc : List Cell) (c : Cell),
      (c ∈ chunks.foldl
        (fun newMap chunk => mergeChunkMap newMap (processCells g [] chunk)) acc) ↔
      c ∈ acc ∨ ∃ chunk ∈ chunks, c ∈ processCells g [] chunk := by
  induction chunks with
  | nil => simp
  | cons ch rest ih =>
    intro acc c
    rw [List.foldl_cons, ih, mem_mergeChunkMap]
    constructor
    · rintro ((h | h) | ⟨ch', hm, h⟩)
      · exact Or.inl h
      · exact Or.inr ⟨ch, List.mem_cons_self _ _, h⟩
      · exact Or.inr ⟨ch', List.mem_cons_of_mem _ hm, h⟩
    · rintro (h | ⟨ch', hm, h⟩)
      · exact Or.inl (Or.inl h)
      · rcases List.mem_cons.mp hm with rfl | hm
        · exact Or.inl (Or.inr h)
        · exact Or.inr ⟨ch', hm, h⟩

theorem getD_set_self {α : Type} (l : List α) (i : Nat) (a d : α) (h : i < l.length) :
    (l.set i a).getD i d = a := by
  rw [List.getD_eq_getElem?_getD, List.getElem?_set_self h]
  rfl

theorem getD_set_ne {α : Type} (l : List α) {i j : Nat} (hij : i ≠ j) (a d : α) :
    (l.set i a).getD j d = l.getD j d := by
  rw [List.getD_eq_getElem?_getD, List.getElem?_set_ne hij, ← List.getD_eq_getElem?_getD]

theorem getD_replicate_of_lt {α : Type} {n : Nat} (x d : α) {i : Nat} (h : i < n) :
    (List.replicate n x).getD i d = x := by
  rw [List.getD_eq_getElem?_getD, List.getElem?_replicate, if_pos h]
  rfl

theorem filterMap_id_replicate_none (m : Nat) :
    (List.replicate m (none : Option Cell)).filterMap id = [] := by
  induction m with
  | zero => rfl
  | succ k ih => rw [List.replicate_succ, List.filterMap_cons]; simp [ih]

theorem filterMap_set_some (l : List (Option Cell)) :
    ∀ (i : Nat) (v : Cell), l.getD i none = none → i < l.length →
      ((l.set i (some v)).filterMap id).Perm (v :: l.filterMap id) := by
  induction l with
  | nil => intro i v _ hlt; simp at hlt
  | cons hd t ih =>
    intro i v hnone hlt
    cases i with
    | zero =>
      have hhd : hd = none := by simpa using hnone
      subst hhd
      have heq : ((none :: t).set 0 (some v)).filterMap id =
          v :: (none :: t).filterMap id := by
        simp [List.filterMap_cons]
      rw [heq]
    | succ j =>
      have hnone' : t.getD j none = none := by simpa using hnone
      have hlt' : j < t.length := by simpa using hlt
      have hperm := ih j v hnone' hlt'
      have hset : (hd :: t).set (j + 1) (some v) = hd :: t.set j (some v) := rfl
      rw [hset]
      cases hd with
      | none =>
        have h1 : (none :: t.set j (some v)).filterMap id =
            (t.set j (some v)).filterMap id := by simp [List.filterMap_cons]
        have h2 : (none :: t).filterMap id = t.filterMap id := by
          simp [List.filterMap_cons]
        rw [h1, h2]
        exact hperm
      | some a =>
        have h1 : (some a :: t.set j (some v)).filterMap id =
            a :: (t.set j (some v)).filterMap id := by simp [List.filterMap_cons]
        have h2 : (some a :: t).filterMap id = a :: t.filterMap id := by
          simp [List.filterMap_cons]
        rw [h1, h2]
        exact (hperm.cons a).trans (List.Perm.swap v a _)

theorem join_filterMap_set (chunks : List (List (Option Cell))) :
    ∀ (c : Nat) (newCh : List (Option Cell)) (v : Cell), c < chunks.length →
      ((newCh.filterMap id).Perm (v :: (chunks.getD c []).filterMap id)) →
      (((chunks.set c newCh).map (fun ch => ch.filterMap id)).flatten).Perm
        (v :: (chunks.map (fun ch => ch.filterMap id)).flatten) := by
  induction chunks with
  | nil => intro c newCh v h; simp at h
  | cons ch rest ih =>
    intro c newCh v hlt hperm
    cases c with
    | zero =>
      have hch : (ch :: rest).getD 0 [] = ch := rfl
      rw [hch] at hperm
      have hset : (ch :: rest).set 0 newCh = newCh :: rest := rfl
      rw [hset]
      simp only [List.map_cons, List.flatten_cons]
      exact hperm.append_right _
    | succ j =>
      have hgd : (ch :: rest).getD (j + 1) [] = rest.getD j [] := rfl
      rw [hgd] at hperm
      have hset : (ch :: rest).set (j + 1) newCh = ch :: rest.set j newCh := rfl
      rw [hset]
      simp only [List.map_cons, List.flatten_cons]
      have hr := ih j newCh v (by simpa using hlt) hperm
      exact (hr.append_left (ch.filterMap id)).trans List.perm_middle

theorem rrIdx_cur (W k : Nat) : rrIdx W k (k % W) = k / W := by
  simp [rrIdx]

theorem rrIdx_succ (W k : Nat) (hW : 0 < W) (c : Nat) (hc : c < W) :
    rrIdx W (k + 1) c = if c = k % W then rrIdx W k c + 1 else rrIdx W k c := by
  have hr : k % W < W := Nat.mod_lt _ hW
  have hk : W * (k / W) + k % W = k := Nat.div_add_mod k W
  by_cases hrW : k % W + 1 = W
  · have h1 : k + 1 = W * (k / W + 1) := by rw [Nat.mul_succ]; omega
    have hdiv : (k + 1) / W = k / W + 1 := by
      rw [h1, Nat.mul_div_cancel_left _ hW]
    have hmod : (k + 1) % W = 0 := by
      rw [h1]
      exact Nat.mul_mod_right W _
    unfold rrIdx
    rw [hdiv, hmod]
    split_ifs <;> omega
  · have hr1 : k % W + 1 < W := by omega
    have h1 : k + 1 = W * (k / W) + (k % W + 1) := by omega
    have hmod : (k + 1) % W = k % W + 1 := by
      rw [h1, Nat.mul_add_mod, Nat.mod_eq_of_lt hr1]
    have hdiv : (k + 1) / W = k / W := by
      rw [h1, Nat.mul_add_div hW, Nat.div_eq_of_lt hr1, Nat.add_zero]
    unfold rrIdx
    rw [hdiv, hmod]
    split_ifs <;> omega

theorem chunkInv_step {W chunkSize : Nat} (hW : 0 < W) {done : List Cell}
    {st : List (List (Option Cell)) × List Nat × Nat} (val : Cell)
    (inv : ChunkInv W chunkSize done st) (hsize : done.length / W < chunkSize) :
    ChunkInv W chunkSize (done ++ [val]) (chunkStep W st val) := by
  have hcur : st.2.2 = done.length % W := inv.cur_eq
  have hcurW : st.2.2 < W := hcur ▸ Nat.mod_lt _ hW
  have hidx : st.2.1.getD st.2.2 0 = done.length / W := by
    rw [inv.idx_val st.2.2 hcurW, hcur, rrIdx_cur]
  have hlen1 : (done ++ [val]).length = done.length + 1 := by simp
  have hmodstep : (done.length % W + 1) % W = (done.length + 1) % W := by
    have h1 : done.length + 1 = W * (done.length / W) + (done.length % W + 1) := by
      have := Nat.div_add_mod done.length W
      omega
    rw [h1, Nat.mul_add_mod]
  constructor
  · simpa [chunkStep] using inv.chunks_len
  · simpa [chunkStep] using inv.idx_len
  · show (st.2.2 + 1) % W = (done ++ [val]).length % W
    rw [hlen1, hcur, hmodstep]
  · intro c hc
    show ((st.1.set st.2.2 ((st.1.getD st.2.2 []).set (st.2.1.getD st.2.2 0) (some val))).getD c []).length = chunkSize
    by_cases hcc : st.2.2 = c
    · subst hcc
      rw [getD_set_self _ _ _ _ (by rw [inv.chunks_len]; exact hcurW)]
      rw [List.length_set]
      exact inv.chunk_len _ hcurW
    · rw [getD_set_ne _ hcc]
      exact inv.chunk_len c hc
  · intro c hc
    show (st.2.1.set st.2.2 (st.2.1.getD st.2.2 0 + 1)).getD c 0 = rrIdx W (done ++ [val]).length c
    rw [hlen1, rrIdx_succ W done.length hW c hc]
    by_cases hcc : st.2.2 = c
    · subst hcc
      rw [getD_set_self _ _ _ _ (by rw [inv.idx_len]; exact hcurW)]
      rw [if_pos hcur, hidx, hcur, rrIdx_cur]
    · rw [getD_set_ne _ hcc]
      rw [if_neg (fun h => hcc (hcur.trans h.symm)), inv.idx_val c hc]
  · intro c hc s hs
    show ((st.1.set st.2.2 ((st.1.getD st.2.2 []).set (st.2.1.getD st.2.2 0) (some val))).getD c []).getD s none = none
    rw [hlen1, rrIdx_succ W done.length hW c hc] at hs
    by_cases hcc : st.2.2 = c
    · subst hcc
      rw [getD_set_self _ _ _ _ (by rw [inv.chunks_len]; exact hcurW)]
      rw [if_pos hcur] at hs
      have hsne : st.2.1.getD st.2.2 0 ≠ s := by
        rw [hidx]
        rw [hcur, rrIdx_cur] at hs
        omega
      rw [getD_set_ne _ hsne]
      apply inv.tail_none _ hcurW
      rw [hcur, rrIdx_cur] at hs ⊢
      rw [hidx] at hsne
      omega
    · rw [getD_set_ne _ hcc]
      rw [if_neg (fun h => hcc (hcur.trans h.symm))] at hs
      exact inv.tail_none c hc s hs
  · show (((st.1.set st.2.2 ((st.1.getD st.2.2 []).set (st.2.1.getD st.2.2 0) (some val))).map
      (fun ch => ch.filterMap id)).flatten).Perm (done ++ [val])
    have hin : ((((st.1.getD st.2.2 []).set (st.2.1.getD st.2.2 0) (some val))).filterMap id).Perm
        (val :: (st.1.getD st.2.2 []).filterMap id) := by
      apply filterMap_set_some
      · rw [hidx]
        apply inv.tail_none _ hcurW
        rw [hcur, rrIdx_cur]
      · rw [hidx, inv.chunk_len _ hcurW]
        exact hsize
    have hj := join_filterMap_set st.1 st.2.2
      ((st.1.getD st.2.2 []).set (st.2.1.getD st.2.2 0) (some val)) val
      (by rw [inv.chunks_len]; exact hcurW) hin
    refine hj.trans ?_
    refine (inv.content.cons val).trans ?_
    have hfin := (@List.perm_middle Cell val done []).symm
    simpa using hfin

theorem flatten_filterMap_replicate (W chunkSize : Nat) :
    ((List.replicate W (List.replicate chunkSize (none : Option Cell))).map
      (fun ch => ch.filterMap id)).flatten = [] := by
  induction W with
  | zero => rfl
  | succ k ih =>
    rw [List.replicate_succ, List.map_cons, List.flatten_cons, ih,
      filterMap_id_replicate_none]
    rfl

theorem chunkInv_init (W chunkSize : Nat) :
    ChunkInv W chunkSize []
      (List.replicate W (List.replicate chunkSize (none : Option Cell)),
       List.replicate W 0, 0) := by
  constructor
  · exact List.length_replicate W _
  · exact List.length_replicate W _
  · simp
  · intro c hc
    show ((List.replicate W (List.replicate chunkSize (none : Option Cell))).getD c []).length = chunkSize
    rw [getD_replicate_of_lt _ _ hc, List.length_replicate]
  · intro c hc
    show (List.replicate W 0).getD c 0 = rrIdx W ([] : List Cell).length c
    rw [getD_replicate_of_lt _ _ hc]
    simp [rrIdx]
  · intro c hc s _
    show ((List.replicate W (List.replicate chunkSize (none : Option Cell))).getD c []).getD s none = none
    rw [getD_replicate_of_lt _ _ hc, List.getD_eq_getElem?_getD, List.getElem?_replicate]
    split <;> rfl
  · show (((List.replicate W (List.replicate chunkSize (none : Option Cell))).map
      (fun ch => ch.filterMap id)).flatten).Perm []
    rw [flatten_filterMap_replicate]

theorem chunkInv_foldl {W chunkSize : Nat} (hW : 0 < W) (N : Nat)
    (hcs : chunkSize = N / W + 1) :
    ∀ (l done : List Cell) (st : List (List (Option Cell)) × List Nat × Nat),
      ChunkInv W chunkSize done st → done.length + l.length = N →
      ChunkInv W chunkSize (done ++ l) (l.foldl (chunkStep W) st) := by
  intro l
  induction l with
  | nil =>
    intro done st inv _
    simpa using inv
  | cons v rest ih =>
    intro done st inv hN
    have hdone_lt : done.length < N := by
      simp at hN
      omega
    have hsize : done.length / W < chunkSize := by
      have hle : done.length / W ≤ N / W := Nat.div_le_div_right (Nat.le_of_lt hdone_lt)
      omega
    have inv' := chunkInv_step hW v inv hsize
    have hN' : (done ++ [v]).length + rest.length = N := by
      simp at hN ⊢
      omega
    have h := ih (done ++ [v]) (chunkStep W st v) inv' hN'
    rw [List.foldl_cons]
    have happ : (done ++ [v]) ++ rest = done ++ v :: rest := by
      rw [List.append_assoc]
      rfl
    rwa [happ] at h

theorem chunkCells_spec (cells : List Cell) (W : Nat) (hW : 0 < W) :
    (chunkCells cells W).length = W ∧
    (((chunkCells cells W).map (fun ch => ch.filterMap id)).flatten).Perm cells := by
  have h := chunkInv_foldl hW cells.length rfl cells []
    (List.replicate W (List.replicate (cells.length / W + 1) (none : Option Cell)),
     List.replicate W 0, 0)
    (chunkInv_init W (cells.length / W + 1)) (by simp)
  have heq : chunkCells cells W =
      (cells.foldl (chunkStep W)
        (List.replicate W (List.replicate (cells.length / W + 1) (none : Option Cell)),
         List.replicate W 0, 0)).1 := rfl
  rw [heq]
  refine ⟨h.chunks_len, ?_⟩
  have hc := h.content
  simpa using hc

theorem mem_chunkCells_iff (cells : List Cell) (W : Nat) (hW : 0 < W) (c : Cell) :
    (∃ ch ∈ chunkCells cells W, some c ∈ ch) ↔ c ∈ cells := by
  have hperm := (chunkCells_spec cells W hW).2
  constructor
  · rintro ⟨ch, hch, hc⟩
    apply hperm.mem_iff.mp
    rw [List.mem_flatten]
    refine ⟨ch.filterMap id, List.mem_map_of_mem _ hch, ?_⟩
    rw [List.mem_filterMap]
    exact ⟨some c, hc, rfl⟩
  · intro hc
    have := hperm.mem_iff.mpr hc
    rw [List.mem_flatten] at this
    obtain ⟨l, hl, hcl⟩ := this
    rw [List.mem_map] at hl
    obtain ⟨ch, hch, rfl⟩ := hl
    rw [List.mem_filterMap] at hcl
    obtain ⟨a, ha, haa⟩ := hcl
    refine ⟨ch, hch, ?_⟩
    have : a = some c := haa
    exact this ▸ ha

theorem shouldKillCell_false_iff (m : List Cell) (x y : Int) :
    shouldKillCell m x y = false ↔
      (getCellNeighborCount m x y = 2 ∨ getCellNeighborCount m x y = 3) := by
  unfold shouldKillCell
  dsimp only
  split_ifs with h1 h2
  · simp
    omega
  · simp
    omega
  · simp
    omega

theorem shouldReviveCell_iff (m : List Cell) (x y : Int) :
    shouldReviveCell m x y = true ↔ getCellNeighborCount m x y = 3 := by
  simp [shouldReviveCell]

theorem neg_mem_neighborOffsets :
    ∀ o ∈ neighborOffsets, ((-o.1, -o.2) : Int × Int) ∈ neighborOffsets := by
  decide

theorem neighborOffsets_bounds :
    ∀ o ∈ neighborOffsets, o.1.natAbs ≤ 1 ∧ o.2.natAbs ≤ 1 ∧ ¬(o.1 = 0 ∧ o.2 = 0) := by
  decide

theorem neighborOffsets_nodup : neighborOffsets.Nodup := by decide

theorem offset_cell_ne_center (x y : Int) (o : Int × Int) (ho : o ∈ neighborOffsets) :
    (⟨x + o.1, y + o.2⟩ : Cell) ≠ (⟨x, y⟩ : Cell) := by
  intro h
  obtain ⟨_, _, hnz⟩ := neighborOffsets_bounds o ho
  apply hnz
  rw [Cell.mk.injEq] at h
  omega

theorem cell_eq_mk_iff {c : Cell} {a b : Int} : c = (⟨a, b⟩ : Cell) ↔ c.x = a ∧ c.y = b := by
  cases c
  simp [Cell.mk.injEq]

theorem int64Min_eq : int64Min = -9223372036854775808 := by
  norm_num [int64Min]

theorem int64Max_eq : int64Max = 9223372036854775807 := by
  norm_num [int64Max]

theorem wrap64_eq_self {a : Int} (h1 : int64Min ≤ a) (h2 : a ≤ int64Max) :
    wrap64 a = a := by
  rw [int64Min_eq] at h1
  rw [int64Max_eq] at h2
  unfold wrap64
  omega

theorem wrap64_roundtrip (a d : Int) (h1 : int64Min ≤ a) (h2 : a ≤ int64Max) :
    wrap64 (wrap64 (a + d) + -d) = a := by
  rw [int64Min_eq] at h1
  rw [int64Max_eq] at h2
  unfold wrap64
  omega

theorem wrap64_ne_self_of_shift (x d : Int) (hd1 : -1 ≤ d) (hd2 : d ≤ 1) (hdne : d ≠ 0) :
    wrap64 (x + d) ≠ x := by
  unfold wrap64
  omega

theorem wrap64_add_inj_small (x a b : Int) (ha1 : -1 ≤ a) (ha2 : a ≤ 1) (hb1 : -1 ≤ b)
    (hb2 : b ≤ 1) (h : wrap64 (x + a) = wrap64 (x + b)) : a = b := by
  unfold wrap64 at h
  omega

theorem count_eq_plane_of_interior (m : List Cell) (x y : Int)
    (hx1 : int64Min < x) (hx2 : x < int64Max) (hy1 : int64Min < y) (hy2 : y < int64Max) :
    getCellNeighborCount m x y = planeNeighborCount m x y := by
  rw [int64Min_eq] at hx1 hy1
  rw [int64Max_eq] at hx2 hy2
  unfold getCellNeighborCount planeNeighborCount
  congr 1
  apply List.filter_congr
  intro o ho
  obtain ⟨hb1, hb2, -⟩ := neighborOffsets_bounds o ho
  have hx : wrap64 (x + o.1) = x + o.1 :=
    wrap64_eq_self (by rw [int64Min_eq]; omega) (by rw [int64Max_eq]; omega)
  have hy : wrap64 (y + o.2) = y + o.2 :=
    wrap64_eq_self (by rw [int64Min_eq]; omega) (by rw [int64Max_eq]; omega)
  rw [hx, hy]

theorem exists_adjacent_of_count_ne_zero (m : List Cell) (c : Cell)
    (hc : cellInRange c) (h : getCellNeighborCount m c.x c.y ≠ 0) :
    ∃ cell ∈ m, adjacentTo cell c := by
  unfold getCellNeighborCount at h
  have hne : neighborOffsets.filter
      (fun o => decide ((⟨wrap64 (c.x + o.1), wrap64 (c.y + o.2)⟩ : Cell) ∈ m)) ≠ [] := by
    intro hnil
    rw [hnil] at h
    exact h rfl
  obtain ⟨o, ho⟩ := List.exists_mem_of_ne_nil _ hne
  rw [List.mem_filter] at ho
  obtain ⟨hoff, hmem⟩ := ho
  have hmem' : (⟨wrap64 (c.x + o.1), wrap64 (c.y + o.2)⟩ : Cell) ∈ m :=
    of_decide_eq_true hmem
  refine ⟨⟨wrap64 (c.x + o.1), wrap64 (c.y + o.2)⟩, hmem',
    (-o.1, -o.2), neg_mem_neighborOffsets o hoff, ?_⟩
  rw [cell_eq_mk_iff]
  constructor
  · show c.x = wrap64 (wrap64 (c.x + o.1) + -o.1)
    rw [wrap64_roundtrip c.x o.1 hc.1 hc.2.1]
  · show c.y = wrap64 (wrap64 (c.y + o.2) + -o.2)
    rw [wrap64_roundtrip c.y o.2 hc.2.2.1 hc.2.2.2]

theorem mem_single_path (m : List Cell) (c : Cell) :
    c ∈ processCells m [] (m.map some) ↔
      ∃ cell : Cell, cell ∈ m ∧
        ((c = cell ∧ shouldKillCell m cell.x cell.y = false) ∨
         (adjacentTo cell c ∧ c ∉ m ∧ shouldReviveCell m c.x c.y = true)) := by
  rw [mem_processCells]
  simp only [List.mem_map, List.not_mem_nil, false_or]
  constructor
  · rintro ⟨cell, ⟨cell', hmem, heq⟩, hp⟩
    have : cell' = cell := by simpa using heq
    subst this
    exact ⟨cell', hmem, hp⟩
  · rintro ⟨cell, hmem, hp⟩
    exact ⟨cell, ⟨cell, hmem, rfl⟩, hp⟩

theorem mem_getNewCellMap_raw (m : List Cell) (W : Nat) (hW : 0 < W) (c : Cell) :
    c ∈ getNewCellMap m W ↔
      ∃ cell : Cell, cell ∈ m ∧
        ((c = cell ∧ shouldKillCell m cell.x cell.y = false) ∨
         (adjacentTo cell c ∧ c ∉ m ∧ shouldReviveCell m c.x c.y = true)) := by
  unfold getNewCellMap
  split
  · exact mem_single_path m c
  · next hge =>
    rw [mem_foldl_merge]
    simp only [List.not_mem_nil, false_or]
    constructor
    · rintro ⟨chunk, hchunk, hc⟩
      rw [mem_processCells] at hc
      rcases hc with h | ⟨cell, hcell, hp⟩
      · exact absurd h (List.not_mem_nil c)
      · have hcm : cell ∈ m :=
          (mem_chunkCells_iff m W hW cell).mp ⟨chunk, hchunk, hcell⟩
        exact ⟨cell, hcm, hp⟩
    · rintro ⟨cell, hcm, hp⟩
      obtain ⟨chunk, hchunk, hcell⟩ := (mem_chunkCells_iff m W hW cell).mpr hcm
      refine ⟨chunk, hchunk, ?_⟩
      rw [mem_processCells]
      exact Or.inr ⟨cell, hcell, hp⟩

/-- C1 counterexample: Go's int64 addition wraps, so on the legal
boundary generation holding (2^63-1, 0), (-2^63, 0) and (-2^63, 1) the
pipeline keeps the cell (2^63-1, 0) alive - its wrapped neighbor scan
reaches the two cells at x = -2^63 - although its plane Moore neighbor
count is 0, so the claimed plane reference step would kill it. -/
theorem life_rule_plane_claim_false :
    (⟨9223372036854775807, 0⟩ : Cell) ∈
      getNewCellMap
        [⟨9223372036854775807, 0⟩, ⟨-9223372036854775808, 0⟩, ⟨-9223372036854775808, 1⟩]
        WORKER_COUNT ∧
    ¬(((⟨9223372036854775807, 0⟩ : Cell) ∈
          ([⟨9223372036854775807, 0⟩, ⟨-9223372036854775808, 0⟩,
            ⟨-9223372036854775808, 1⟩] : List Cell) ∧
        (planeNeighborCount [⟨9223372036854775807, 0⟩, ⟨-9223372036854775808, 0⟩,
            ⟨-9223372036854775808, 1⟩] 9223372036854775807 0 = 2 ∨
         planeNeighborCount [⟨9223372036854775807, 0⟩, ⟨-9223372036854775808, 0⟩,
            ⟨-9223372036854775808, 1⟩] 9223372036854775807 0 = 3)) ∨
      ((⟨9223372036854775807, 0⟩ : Cell) ∉
          ([⟨9223372036854775807, 0⟩, ⟨-9223372036854775808, 0⟩,
            ⟨-9223372036854775808, 1⟩] : List Cell) ∧
        planeNeighborCount [⟨9223372036854775807, 0⟩, ⟨-9223372036854775808, 0⟩,
            ⟨-9223372036854775808, 1⟩] 9223372036854775807 0 = 3)) := by
  refine ⟨by decide, by decide⟩

/-- C1 amended: for every generation and every coordinate in the int64
range, the full pipeline getNewCellMap (at the program's worker count)
computes the Game of Life step with neighbor counts taken under Go's
wrapping int64 addition: a cell is in the next generation iff it is live
with wrapped neighbor count 2 or 3, or dead with wrapped neighbor count
exactly 3.  Away from the int64 boundary the wrapped count equals the
plane Moore count, so there the plane reference step holds verbatim. -/
theorem getNewCellMap_wrapped_life_rule (m : List Cell) (c : Cell) (hc : cellInRange c) :
    (c ∈ getNewCellMap m WORKER_COUNT ↔
      ((c ∈ m ∧ (getCellNeighborCount m c.x c.y = 2 ∨ getCellNeighborCount m c.x c.y = 3)) ∨
       (c ∉ m ∧ getCellNeighborCount m c.x c.y = 3))) ∧
    (int64Min < c.x → c.x < int64Max → int64Min < c.y → c.y < int64Max →
      (c ∈ getNewCellMap m WORKER_COUNT ↔
        ((c ∈ m ∧ (planeNeighborCount m c.x c.y = 2 ∨ planeNeighborCount m c.x c.y = 3)) ∨
         (c ∉ m ∧ planeNeighborCount m c.x c.y = 3)))) := by
  have hmain : c ∈ getNewCellMap m WORKER_COUNT ↔
      ((c ∈ m ∧ (getCellNeighborCount m c.x c.y = 2 ∨ getCellNeighborCount m c.x c.y = 3)) ∨
       (c ∉ m ∧ getCellNeighborCount m c.x c.y = 3)) := by
    rw [mem_getNewCellMap_raw m WORKER_COUNT (by decide) c]
    constructor
    · rintro ⟨cell, hcell, ⟨rfl, hk⟩ | ⟨_, hnm, hrv⟩⟩
      · exact Or.inl ⟨hcell, (shouldKillCell_false_iff m _ _).mp hk⟩
      · exact Or.inr ⟨hnm, (shouldReviveCell_iff m _ _).mp hrv⟩
    · rintro (⟨hcm, hcount⟩ | ⟨hnm, h3⟩)
      · exact ⟨c, hcm, Or.inl ⟨rfl, (shouldKillCell_false_iff m _ _).mpr hcount⟩⟩
      · obtain ⟨cell, hcm, hadj⟩ :=
          exists_adjacent_of_count_ne_zero m c hc (by omega)
        exact ⟨cell, hcm, Or.inr ⟨hadj, hnm, (shouldReviveCell_iff m _ _).mpr h3⟩⟩
  refine ⟨hmain, fun h1 h2 h3 h4 => ?_⟩
  rw [hmain, count_eq_plane_of_interior m c.x c.y h1 h2 h3 h4]

/-- C1 witness: the blinker births (1, 1), whose coordinates are in the
int64 range, in accordance with the wrapped rule. -/
theorem getNewCellMap_wrapped_life_rule_witness :
    cellInRange ⟨1, 1⟩ ∧
    ((⟨1, 1⟩ : Cell) ∈ getNewCellMap [⟨0, 0⟩, ⟨1, 0⟩, ⟨2, 0⟩] WORKER_COUNT ↔
      (((⟨1, 1⟩ : Cell) ∈ ([⟨0, 0⟩, ⟨1, 0⟩, ⟨2, 0⟩] : List Cell) ∧
        (getCellNeighborCount [⟨0, 0⟩, ⟨1, 0⟩, ⟨2, 0⟩] 1 1 = 2 ∨
         getCellNeighborCount [⟨0, 0⟩, ⟨1, 0⟩, ⟨2, 0⟩] 1 1 = 3)) ∨
       ((⟨1, 1⟩ : Cell) ∉ ([⟨0, 0⟩, ⟨1, 0⟩, ⟨2, 0⟩] : List Cell) ∧
        getCellNeighborCount [⟨0, 0⟩, ⟨1, 0⟩, ⟨2, 0⟩] 1 1 = 3))) :=
  ⟨by decide,
    (getNewCellMap_wrapped_life_rule [⟨0, 0⟩, ⟨1, 0⟩, ⟨2, 0⟩] ⟨1, 1⟩ (by decide)).1⟩

/-- C2: the resulting coordinate set of the full pipeline is independent of
the worker count (for any worker counts at least 1, in particular 1 and 4),
and always equals the result of the single-chunk path. -/
theorem getNewCellMap_worker_count_independent (m : List Cell) (W₁ W₂ : Nat)
    (h₁ : 1 ≤ W₁) (h₂ : 1 ≤ W₂) :
    (getNewCellMap m W₁).toFinset = (getNewCellMap m W₂).toFinset ∧
    (getNewCellMap m W₁).toFinset = (processCells m [] (m.map some)).toFinset := by
  have key : ∀ W, 1 ≤ W → ∀ c : Cell,
      c ∈ getNewCellMap m W ↔ c ∈ processCells m [] (m.map some) := by
    intro W hW c
    rw [mem_getNewCellMap_raw m W hW c, mem_single_path]
  constructor
  · ext c
    simp only [List.mem_toFinset]
    rw [key W₁ h₁ c, key W₂ h₂ c]
  · ext c
    simp only [List.mem_toFinset]
    rw [key W₁ h₁ c]

/-- C2 witness: the blinker evaluated at worker counts 1 and 4. -/
theorem getNewCellMap_worker_count_independent_witness :
    1 ≤ 1 ∧ 1 ≤ 4 ∧
      ((getNewCellMap [⟨0, 0⟩, ⟨1, 0⟩, ⟨2, 0⟩] 1).toFinset =
        (getNewCellMap [⟨0, 0⟩, ⟨1, 0⟩, ⟨2, 0⟩] 4).toFinset ∧
       (getNewCellMap [⟨0, 0⟩, ⟨1, 0⟩, ⟨2, 0⟩] 1).toFinset =
        (processCells [⟨0, 0⟩, ⟨1, 0⟩, ⟨2, 0⟩] []
          ([⟨0, 0⟩, ⟨1, 0⟩, ⟨2, 0⟩].map some)).toFinset) :=
  ⟨by decide, by decide,
    getNewCellMap_worker_count_independent [⟨0, 0⟩, ⟨1, 0⟩, ⟨2, 0⟩] 1 4
      (by decide) (by decide)⟩

/-- C3: for worker count W at least 1, the chunker produces a single chunk
holding all N cells when N < W, otherwise exactly W chunks, and in every
case the non-nil entries of all chunks together are a permutation of the
input cells (each cell exactly once, none duplicated or omitted). -/
theorem chunker_partition_complete (cells : List Cell) (W : Nat) (hW : 1 ≤ W) :
    (cells.length < W → chunker cells W = [cells.map some]) ∧
    (W ≤ cells.length → (chunker cells W).length = W) ∧
    (((chunker cells W).map (fun ch => ch.filterMap id)).flatten).Perm cells := by
  unfold chunker
  by_cases h : cells.length < W
  · rw [if_pos h]
    refine ⟨fun _ => rfl, fun hle => absurd h (by omega), ?_⟩
    simp
  · rw [if_neg h]
    have hspec := chunkCells_spec cells W hW
    exact ⟨fun hlt => absurd hlt h, fun _ => hspec.1, hspec.2⟩

/-- C3 witness: five cells distributed over four chunks. -/
theorem chunker_partition_complete_witness :
    1 ≤ 4 ∧
      (((chunker [⟨0, 0⟩, ⟨0, 1⟩, ⟨0, 2⟩, ⟨0, 3⟩, ⟨0, 4⟩] 4).map
        (fun ch => ch.filterMap id)).flatten).Perm
        [⟨0, 0⟩, ⟨0, 1⟩, ⟨0, 2⟩, ⟨0, 3⟩, ⟨0, 4⟩] :=
  ⟨by decide,
    (chunker_partition_complete [⟨0, 0⟩, ⟨0, 1⟩, ⟨0, 2⟩, ⟨0, 3⟩, ⟨0, 4⟩] 4
      (by decide)).2.2⟩

/-- C6: the merged next generation never contains a duplicate coordinate
(so a coordinate proposed by several workers appears exactly once), merging
inserts exactly the union of the coordinate sets, and inserting an already
present coordinate is a no-op. -/
theorem merge_deduplicates (m : List Cell) (W : Nat) (c : Cell) :
    (getNewCellMap m W).Nodup ∧
    (c ∈ getNewCellMap m W → (getNewCellMap m W).count c = 1) ∧
    (∀ nm cm : List Cell, c ∈ mergeChunkMap nm cm ↔ c ∈ nm ∨ c ∈ cm) ∧
    (∀ nm : List Cell, c ∈ nm → mapInsert nm c = nm) := by
  refine ⟨nodup_getNewCellMap m W, ?_, ?_, ?_⟩
  · intro hc
    exact List.count_eq_one_of_mem (nodup_getNewCellMap m W) hc
  · intro nm cm
    exact mem_mergeChunkMap
  · intro nm hc
    unfold mapInsert
    rw [if_pos hc]

/-- C6 witness: a vertical line of four cells is split into four chunks,
three of which propose the birth of (1, 1); the merged generation contains
it exactly once. -/
theorem merge_deduplicates_witness :
    (⟨1, 1⟩ : Cell) ∈ getNewCellMap [⟨0, 0⟩, ⟨0, 1⟩, ⟨0, 2⟩, ⟨0, 3⟩] 4 ∧
      (getNewCellMap [⟨0, 0⟩, ⟨0, 1⟩, ⟨0, 2⟩, ⟨0, 3⟩] 4).count ⟨1, 1⟩ = 1 :=
  ⟨by decide,
    (merge_deduplicates [⟨0, 0⟩, ⟨0, 1⟩, ⟨0, 2⟩, ⟨0, 3⟩] 4 ⟨1, 1⟩).2.1 (by decide)⟩

/-- C4 counterexample: the code's handoff channel has capacity one, but a
publish into a full channel blocks (no successor state) instead of dropping
the previously published generation: with generation g0 pending, sending g1
does not leave the buffer holding g1. -/
theorem publish_overwrite_claim_false :
    chanSend newMapsCapacity [[]] [⟨0, 0⟩] = none ∧
    chanSend newMapsCapacity [[]] [⟨0, 0⟩] ≠ some [[⟨0, 0⟩]] := by
  decide

/-- C4 amended: the handoff channel has capacity exactly one; a publish
into the empty channel succeeds, a publish while the previous generation is
still buffered blocks (rather than overwriting it), and the consumer's
non-blocking poll drains at most one generation. -/
theorem handoff_channel_blocking_semantics :
    newMapsCapacity = 1 ∧
    (∀ v : List Cell, chanSend newMapsCapacity [] v = some [v]) ∧
    (∀ w v : List Cell, chanSend newMapsCapacity [w] v = none) ∧
    (∀ (w : List Cell) (rest : List (List Cell)),
      chanTryRecv (w :: rest) = (some w, rest)) ∧
    chanTryRecv [] = (none, []) := by
  refine ⟨rfl, fun v => rfl, fun w v => rfl, fun w rest => rfl, rfl⟩

/-- C7: the game state starts paused, togglePause flips the paused flag,
and a clock fire in the paused state is a no-op: the pending generation is
unchanged and nothing is published on the handoff channel. -/
theorem scheduler_paused_tick_noop :
    createGameState.paused = true ∧
    (∀ s : GameState, (togglePause s).paused = !s.paused) ∧
    (∀ (s : GameState) (nm : Option (List Cell)), s.paused = true →
      processLoopTick s nm = (nm, [])) := by
  refine ⟨rfl, fun s => rfl, fun s nm hp => ?_⟩
  unfold processLoopTick
  rw [hp]
  rfl

/-- C7 witness: a paused tick with a pending one-cell generation. -/
theorem scheduler_paused_tick_noop_witness :
    (⟨true⟩ : GameState).paused = true ∧
    processLoopTick ⟨true⟩ (some [⟨0, 0⟩]) = (some [⟨0, 0⟩], []) :=
  ⟨rfl, scheduler_paused_tick_noop.2.2 ⟨true⟩ (some [⟨0, 0⟩]) rfl⟩

theorem count_filter_image (m : List Cell) (x y : Int) :
    m.toFinset.filter (mooreNeighbor x y) =
      (neighborOffsets.filter
        (fun o => decide ((⟨x + o.1, y + o.2⟩ : Cell) ∈ m))).toFinset.image
        (fun o => (⟨x + o.1, y + o.2⟩ : Cell)) := by
  ext c
  simp only [Finset.mem_filter, List.mem_toFinset, Finset.mem_image, List.mem_filter,
    decide_eq_true_eq]
  constructor
  · rintro ⟨hm, hmx, hmy, hne⟩
    refine ⟨(c.x - x, c.y - y), ⟨?_, ?_⟩, ?_⟩
    · have hx : c.x - x = -1 ∨ c.x - x = 0 ∨ c.x - x = 1 := by omega
      have hy : c.y - y = -1 ∨ c.y - y = 0 ∨ c.y - y = 1 := by omega
      have hnz : ¬(c.x - x = 0 ∧ c.y - y = 0) := by
        rintro ⟨h1, h2⟩
        exact hne (cell_eq_mk_iff.mpr ⟨by omega, by omega⟩)
      rcases hx with h | h | h <;> rcases hy with h' | h' | h' <;>
        simp only [h, h'] <;> first
        | decide
        | (exact absurd ⟨h, h'⟩ hnz)
    · have heq : (⟨x + (c.x - x), y + (c.y - y)⟩ : Cell) = c := by
        rw [eq_comm, cell_eq_mk_iff]
        exact ⟨by omega, by omega⟩
      rw [heq]
      exact hm
    · rw [eq_comm, cell_eq_mk_iff]
      exact ⟨by omega, by omega⟩
  · rintro ⟨o, ⟨hoffs, hmem⟩, rfl⟩
    obtain ⟨h1, h2, _⟩ := neighborOffsets_bounds o hoffs
    refine ⟨hmem, ?_, ?_, offset_cell_ne_center x y o hoffs⟩
    · simpa using h1
    · simpa using h2

theorem planeNeighborCount_card (m : List Cell) (x y : Int) :
    planeNeighborCount m x y = (m.toFinset.filter (mooreNeighbor x y)).card := by
  rw [count_filter_image]
  rw [Finset.card_image_of_injOn ?inj]
  case inj =>
    intro a _ b _ hab
    rw [Cell.mk.injEq] at hab
    cases a
    cases b
    simp at hab ⊢
    omega
  rw [List.toFinset_card_of_nodup (neighborOffsets_nodup.filter _)]
  rfl

theorem wrapped_cell_ne_center (x y : Int) (o : Int × Int) (ho : o ∈ neighborOffsets) :
    (⟨wrap64 (x + o.1), wrap64 (y + o.2)⟩ : Cell) ≠ (⟨x, y⟩ : Cell) := by
  obtain ⟨hb1, hb2, hnz⟩ := neighborOffsets_bounds o ho
  intro h
  rw [Cell.mk.injEq] at h
  by_cases ho1 : o.1 = 0
  · have ho2 : o.2 ≠ 0 := fun h2 => hnz ⟨ho1, h2⟩
    exact wrap64_ne_self_of_shift y o.2 (by omega) (by omega) ho2 h.2
  · exact wrap64_ne_self_of_shift x o.1 (by omega) (by omega) ho1 h.1

theorem wrapped_count_filter_image (m : List Cell) (x y : Int) :
    m.toFinset.filter (wrappedMooreNeighbor x y) =
      (neighborOffsets.filter
        (fun o => decide ((⟨wrap64 (x + o.1), wrap64 (y + o.2)⟩ : Cell) ∈ m))).toFinset.image
        (fun o => (⟨wrap64 (x + o.1), wrap64 (y + o.2)⟩ : Cell)) := by
  ext c
  simp only [Finset.mem_filter, List.mem_toFinset, Finset.mem_image, List.mem_filter,
    decide_eq_true_eq]
  unfold wrappedMooreNeighbor
  constructor
  · rintro ⟨hm, o, ho, rfl⟩
    exact ⟨o, ⟨ho, hm⟩, rfl⟩
  · rintro ⟨o, ⟨ho, hm⟩, rfl⟩
    exact ⟨hm, o, ho, rfl⟩

/-- C5 counterexample: on the legal boundary generation holding
(2^63-1, 0), (-2^63, 0) and (-2^63, 1), the program's neighbor count at
(2^63-1, 0) is 2 - the scan wraps to x = -2^63 - while the plane Moore
neighborhood of that point contains none of the generation's cells, so the
claimed equality with the plane Moore count fails. -/
theorem neighbor_count_plane_claim_false :
    getCellNeighborCount
      [⟨9223372036854775807, 0⟩, ⟨-9223372036854775808, 0⟩, ⟨-9223372036854775808, 1⟩]
      9223372036854775807 0 = 2 ∧
    (([⟨9223372036854775807, 0⟩, ⟨-9223372036854775808, 0⟩,
        ⟨-9223372036854775808, 1⟩] : List Cell).toFinset.filter
      (mooreNeighbor 9223372036854775807 0)).card = 0 := by
  refine ⟨by decide, by decide⟩

/-- C5 amended: getCellNeighborCount counts exactly the members of the
generation among the 8 positions reached from (x, y) by the Moore offsets
under Go's wrapping int64 addition, is at most 8, and does not depend on
whether (x, y) itself is live (adding or removing the center leaves it
unchanged).  Away from the int64 boundary these positions are the plane
Moore neighborhood (offsets of at most 1 in each axis, center excluded),
so there the count equals the plane Moore count of the claim; and on the
generation holding only (0,0) and (1,1) it gives 1 at (0,0) and 0 at
(5,5). -/
theorem getCellNeighborCount_wrapped_spec (m : List Cell) (x y : Int) :
    getCellNeighborCount m x y = (m.toFinset.filter (wrappedMooreNeighbor x y)).card ∧
    getCellNeighborCount m x y ≤ 8 ∧
    getCellNeighborCount ((⟨x, y⟩ : Cell) :: m) x y = getCellNeighborCount m x y ∧
    getCellNeighborCount (m.filter (fun c => decide (c ≠ (⟨x, y⟩ : Cell)))) x y =
      getCellNeighborCount m x y ∧
    (int64Min < x → x < int64Max → int64Min < y → y < int64Max →
      getCellNeighborCount m x y = (m.toFinset.filter (mooreNeighbor x y)).card) ∧
    getCellNeighborCount [⟨0, 0⟩, ⟨1, 1⟩] 0 0 = 1 ∧
    getCellNeighborCount [⟨0, 0⟩, ⟨1, 1⟩] 5 5 = 0 := by
  refine ⟨?_, ?_, ?_, ?_, ?_, by decide, by decide⟩
  · rw [wrapped_count_filter_image]
    rw [Finset.card_image_of_injOn ?inj]
    case inj =>
      intro a ha b hb hab
      rw [Cell.mk.injEq] at hab
      have ha' : a ∈ neighborOffsets :=
        (List.mem_filter.mp (List.mem_toFinset.mp (Finset.mem_coe.mp ha))).1
      have hb' : b ∈ neighborOffsets :=
        (List.mem_filter.mp (List.mem_toFinset.mp (Finset.mem_coe.mp hb))).1
      obtain ⟨ha1, ha2, -⟩ := neighborOffsets_bounds a ha'
      obtain ⟨hb1, hb2, -⟩ := neighborOffsets_bounds b hb'
      have h1 : a.1 = b.1 :=
        wrap64_add_inj_small x a.1 b.1 (by omega) (by omega) (by omega) (by omega) hab.1
      have h2 : a.2 = b.2 :=
        wrap64_add_inj_small y a.2 b.2 (by omega) (by omega) (by omega) (by omega) hab.2
      exact Prod.ext_iff.mpr ⟨h1, h2⟩
    rw [List.toFinset_card_of_nodup (neighborOffsets_nodup.filter _)]
    rfl
  · unfold getCellNeighborCount
    exact le_trans (List.length_filter_le _ _) (by decide)
  · unfold getCellNeighborCount
    congr 1
    apply List.filter_congr
    intro o ho
    have hne := wrapped_cell_ne_center x y o ho
    simp only [decide_eq_decide, List.mem_cons]
    constructor
    · rintro (h | h)
      · exact absurd h hne
      · exact h
    · exact Or.inr
  · unfold getCellNeighborCount
    congr 1
    apply List.filter_congr
    intro o ho
    simp only [decide_eq_decide, List.mem_filter, decide_eq_true_eq]
    constructor
    · rintro ⟨h, -⟩
      exact h
    · intro h
      exact ⟨h, wrapped_cell_ne_center x y o ho⟩
  · intro h1 h2 h3 h4
    rw [count_eq_plane_of_interior m x y h1 h2 h3 h4, planeNeighborCount_card]

/-- C5 witness: at the interior point (0, 0) of the two-cell generation,
the program's count equals the plane Moore count. -/
theorem getCellNeighborCount_wrapped_spec_witness :
    int64Min < (0 : Int) ∧ (0 : Int) < int64Max ∧
    getCellNeighborCount [⟨0, 0⟩, ⟨1, 1⟩] 0 0 =
      (([⟨0, 0⟩, ⟨1, 1⟩] : List Cell).toFinset.filter (mooreNeighbor 0 0)).card :=
  ⟨by decide, by decide,
    (getCellNeighborCount_wrapped_spec [⟨0, 0⟩, ⟨1, 1⟩] 0 0).2.2.2.2.1
      (by decide) (by decide) (by decide) (by decide)⟩

theorem mem_pattern_char_fold (line : Int) :
    ∀ (cs : List Char) (cells : List Cell) (i0 : Int) (c : Cell),
      (c ∈ (cs.foldl (fun (st : List Cell × Int) char =>
        if char = 'O' then (mapInsert st.1 ⟨st.2, line⟩, st.2 + 1)
        else (st.1, st.2 + 1)) (cells, i0)).1) ↔
      (c ∈ cells ∨ (c.y = line ∧ ∃ j : Nat, cs[j]? = some 'O' ∧ c.x = i0 + j)) := by
  intro cs
  induction cs with
  | nil => simp
  | cons ch rest ih =>
    intro cells i0 c
    rw [List.foldl_cons]
    by_cases hch : ch = 'O'
    · subst hch
      rw [if_pos rfl]
      rw [ih]
      rw [mem_mapInsert]
      constructor
      · rintro ((h | h) | ⟨hy, j, hj, hx⟩)
        · exact Or.inl h
        · refine Or.inr ⟨(cell_eq_mk_iff.mp h).2, 0, by simp, ?_⟩
          rw [(cell_eq_mk_iff.mp h).1]
          simp
        · refine Or.inr ⟨hy, j + 1, by simpa using hj, ?_⟩
          rw [hx]
          push_cast
          ring
      · rintro (h | ⟨hy, j, hj, hx⟩)
        · exact Or.inl (Or.inl h)
        · cases j with
          | zero =>
            refine Or.inl (Or.inr (cell_eq_mk_iff.mpr ⟨?_, hy⟩))
            simpa using hx
          | succ j' =>
            refine Or.inr ⟨hy, j', by simpa using hj, ?_⟩
            rw [hx]
            push_cast
            ring
    · rw [if_neg hch]
      rw [ih]
      constructor
      · rintro (h | ⟨hy, j, hj, hx⟩)
        · exact Or.inl h
        · refine Or.inr ⟨hy, j + 1, by simpa using hj, ?_⟩
          rw [hx]
          push_cast
          ring
      · rintro (h | ⟨hy, j, hj, hx⟩)
        · exact Or.inl h
        · cases j with
          | zero =>
            exfalso
            apply hch
            simpa using hj
          | succ j' =>
            refine Or.inr ⟨hy, j', by simpa using hj, ?_⟩
            rw [hx]
            push_cast
            ring

theorem mem_patternLineCells (cells : List Cell) (line : Int) (text : String) (c : Cell) :
    c ∈ patternLineCells cells line text ↔
      (c ∈ cells ∨ (c.y = line ∧ ∃ j : Nat, text.data[j]? = some 'O' ∧ c.x = (j : Int))) := by
  unfold patternLineCells
  rw [mem_pattern_char_fold]
  simp

theorem readPatternAux_cons (l : String) (rest : List String) (cells : List Cell)
    (line : Int) :
    readPatternAux (l :: rest) cells line =
      if isCommentLine l then readPatternAux rest cells line
      else readPatternAux rest (patternLineCells cells line l) (line - 1) := rfl

theorem readPatternAux_filter :
    ∀ (lines : List String) (cells : List Cell) (line : Int),
      readPatternAux lines cells line =
        readPatternAux (lines.filter (fun s => !isCommentLine s)) cells line := by
  intro lines
  induction lines with
  | nil => intro cells line; rfl
  | cons l rest ih =>
    intro cells line
    by_cases hc : isCommentLine l
    · have hf : (l :: rest).filter (fun s => !isCommentLine s) =
          rest.filter (fun s => !isCommentLine s) :=
        List.filter_cons_of_neg (by simp [hc])
      rw [readPatternAux_cons, if_pos hc, hf, ih]
    · have hf : (l :: rest).filter (fun s => !isCommentLine s) =
          l :: rest.filter (fun s => !isCommentLine s) :=
        List.filter_cons_of_pos (by simp [hc])
      rw [readPatternAux_cons, if_neg hc, hf, readPatternAux_cons, if_neg hc, ih]

theorem mem_readPatternAux_nc :
    ∀ (lines : List String), (∀ l ∈ lines, isCommentLine l = false) →
      ∀ (cells : List Cell) (line : Int) (c : Cell),
        (c ∈ readPatternAux lines cells line ↔
          c ∈ cells ∨ ∃ k : Nat, k < lines.length ∧ c.y = line - k ∧
            ∃ j : Nat, (lines.getD k (String.mk [])).data[j]? = some 'O' ∧
              c.x = (j : Int)) := by
  intro lines
  induction lines with
  | nil =>
    intro _ cells line c
    have h0 : readPatternAux [] cells line = cells := rfl
    rw [h0]
    simp
  | cons l rest ih =>
    intro hnc cells line c
    have hl : isCommentLine l = false := hnc l (List.mem_cons_self _ _)
    have hrest : ∀ s ∈ rest, isCommentLine s = false :=
      fun s hs => hnc s (List.mem_cons_of_mem _ hs)
    rw [readPatternAux_cons, if_neg (by simp [hl])]
    rw [ih hrest, mem_patternLineCells]
    constructor
    · rintro ((h | ⟨hy, j, hj, hx⟩) | ⟨k, hk, hy, j, hj, hx⟩)
      · exact Or.inl h
      · refine Or.inr ⟨0, by simp, by simpa using hy, j, ?_, hx⟩
        simpa using hj
      · refine Or.inr ⟨k + 1, by simpa using hk, by push_cast; omega, j, ?_, hx⟩
        simpa using hj
    · rintro (h | ⟨k, hk, hy, j, hj, hx⟩)
      · exact Or.inl (Or.inl h)
      · cases k with
        | zero =>
          refine Or.inl (Or.inr ⟨by simpa using hy, j, ?_, hx⟩)
          simpa using hj
        | succ k' =>
          refine Or.inr ⟨k', by simpa using hk, by push_cast at hy ⊢; omega, j, ?_, hx⟩
          simpa using hj

/-- C9: readPattern ignores every line beginning with the comment marker,
and a cell (x, y) is produced exactly when the (-y)-th remaining line (rows
counting down from 0 as lines are consumed) has the live marker character
at rune index x. -/
theorem readPattern_spec (lines : List String) (c : Cell) :
    readPattern lines = readPattern (lines.filter (fun s => !isCommentLine s)) ∧
    (c ∈ readPattern lines ↔
      ∃ k : Nat, k < (lines.filter (fun s => !isCommentLine s)).length ∧
        c.y = -(k : Int) ∧
        ∃ j : Nat,
          ((lines.filter (fun s => !isCommentLine s)).getD k (String.mk [])).data[j]? =
            some 'O' ∧ c.x = (j : Int)) := by
  have hfil : ∀ s ∈ lines.filter (fun s => !isCommentLine s), isCommentLine s = false := by
    intro s hs
    rw [List.mem_filter] at hs
    simpa using hs.2
  constructor
  · unfold readPattern
    rw [readPatternAux_filter lines [] 0]
  · unfold readPattern
    rw [readPatternAux_filter lines [] 0]
    rw [mem_readPatternAux_nc _ hfil]
    simp only [List.not_mem_nil, false_or]
    constructor
    · rintro ⟨k, hk, hy, hrest⟩
      exact ⟨k, hk, by omega, hrest⟩
    · rintro ⟨k, hk, hy, hrest⟩
      exact ⟨k, hk, by omega, hrest⟩

theorem readCoordinatesAux_cons (text : String) (rest : List String) (cells : List Cell) :
    readCoordinatesAux (text :: rest) cells =
      match atoiChars ((lineTokens text).getD 0 []) with
      | none => ReadResult.err
      | some x =>
        match (lineTokens text)[1]? with
        | none => ReadResult.indexPanic
        | some second =>
          match atoiChars second with
          | none => ReadResult.err
          | some y =>
            if (⟨x, y⟩ : Cell) ∈ cells then ReadResult.err
            else readCoordinatesAux rest (cells ++ [⟨x, y⟩]) := rfl

theorem readCoordinatesAux_spec :
    ∀ (lines : List String) (cells : List Cell),
      ((readCoordinatesAux lines cells).isOk = true ↔
        ((∀ l ∈ lines, (lineCell l).isSome = true) ∧
         (lines.filterMap lineCell).Nodup ∧
         ∀ c ∈ lines.filterMap lineCell, c ∉ cells)) ∧
      (((∀ l ∈ lines, (lineCell l).isSome = true) ∧
         (lines.filterMap lineCell).Nodup ∧
         ∀ c ∈ lines.filterMap lineCell, c ∉ cells) →
        readCoordinatesAux lines cells =
          ReadResult.ok (cells ++ lines.filterMap lineCell)) := by
  intro lines
  induction lines with
  | nil =>
    intro cells
    constructor
    · simp [readCoordinatesAux, ReadResult.isOk]
    · intro _
      simp [readCoordinatesAux]
  | cons l rest ih =>
    intro cells
    cases h0 : atoiChars ((lineTokens l).getD 0 []) with
    | none =>
      have hlc : lineCell l = none := by
        simp only [lineCell, h0]
      have hstep : readCoordinatesAux (l :: rest) cells = ReadResult.err := by
        rw [readCoordinatesAux_cons]
        simp only [h0]
      rw [hstep]
      constructor
      · constructor
        · intro h
          simp [ReadResult.isOk] at h
        · rintro ⟨hall, -, -⟩
          have := hall l (List.mem_cons_self _ _)
          rw [hlc] at this
          simp at this
      · rintro ⟨hall, -, -⟩
        have := hall l (List.mem_cons_self _ _)
        rw [hlc] at this
        simp at this
    | some x =>
      cases h1 : (lineTokens l)[1]? with
      | none =>
        have hlc : lineCell l = none := by
          simp only [lineCell, h0, h1]
        have hstep : readCoordinatesAux (l :: rest) cells = ReadResult.indexPanic := by
          rw [readCoordinatesAux_cons]
          simp only [h0, h1]
        rw [hstep]
        constructor
        · constructor
          · intro h
            simp [ReadResult.isOk] at h
          · rintro ⟨hall, -, -⟩
            have := hall l (List.mem_cons_self _ _)
            rw [hlc] at this
            simp at this
        · rintro ⟨hall, -, -⟩
          have := hall l (List.mem_cons_self _ _)
          rw [hlc] at this
          simp at this
      | some second =>
        cases h2 : atoiChars second with
        | none =>
          have hlc : lineCell l = none := by
            simp only [lineCell, h0, h1, h2]
          have hstep : readCoordinatesAux (l :: rest) cells = ReadResult.err := by
            rw [readCoordinatesAux_cons]
            simp only [h0, h1, h2]
          rw [hstep]
          constructor
          · constructor
            · intro h
              simp [ReadResult.isOk] at h
            · rintro ⟨hall, -, -⟩
              have := hall l (List.mem_cons_self _ _)
              rw [hlc] at this
              simp at this
          · rintro ⟨hall, -, -⟩
            have := hall l (List.mem_cons_self _ _)
            rw [hlc] at this
            simp at this
        | some y =>
          have hlc : lineCell l = some ⟨x, y⟩ := by
            simp only [lineCell, h0, h1, h2]
          have hfm : (l :: rest).filterMap lineCell =
              ⟨x, y⟩ :: rest.filterMap lineCell := by
            rw [List.filterMap_cons, hlc]
          by_cases hmem : (⟨x, y⟩ : Cell) ∈ cells
          · have hstep : readCoordinatesAux (l :: rest) cells = ReadResult.err := by
              rw [readCoordinatesAux_cons]
              simp only [h0, h1, h2]
              rw [if_pos hmem]
            rw [hstep]
            constructor
            · constructor
              · intro h
                simp [ReadResult.isOk] at h
              · rintro ⟨-, -, hnotin⟩
                rw [hfm] at hnotin
                exact absurd hmem (hnotin _ (List.mem_cons_self _ _))
            · rintro ⟨-, -, hnotin⟩
              rw [hfm] at hnotin
              exact absurd hmem (hnotin _ (List.mem_cons_self _ _))
          · have hstep : readCoordinatesAux (l :: rest) cells =
                readCoordinatesAux rest (cells ++ [⟨x, y⟩]) := by
              rw [readCoordinatesAux_cons]
              simp only [h0, h1, h2]
              rw [if_neg hmem]
            rw [hstep]
            obtain ⟨ihiff, ihimp⟩ := ih (cells ++ [⟨x, y⟩])
            have htrans :
                ((∀ s ∈ rest, (lineCell s).isSome = true) ∧
                 (rest.filterMap lineCell).Nodup ∧
                 ∀ c ∈ rest.filterMap lineCell, c ∉ cells ++ [⟨x, y⟩]) ↔
                ((∀ s ∈ l :: rest, (lineCell s).isSome = true) ∧
                 ((l :: rest).filterMap lineCell).Nodup ∧
                 ∀ c ∈ (l :: rest).filterMap lineCell, c ∉ cells) := by
              rw [hfm]
              constructor
              · rintro ⟨hall, hnd, hnotin⟩
                refine ⟨?_, ?_, ?_⟩
                · intro s hs
                  rcases List.mem_cons.mp hs with rfl | hs
                  · rw [hlc]
                    rfl
                  · exact hall s hs
                · rw [List.nodup_cons]
                  refine ⟨?_, hnd⟩
                  intro hin
                  have := hnotin _ hin
                  simp at this
                · intro c hc
                  rcases List.mem_cons.mp hc with rfl | hc
                  · exact hmem
                  · have := hnotin c hc
                    simp at this
                    exact this.1
              · rintro ⟨hall, hnd, hnotin⟩
                rw [List.nodup_cons] at hnd
                refine ⟨?_, hnd.2, ?_⟩
                · intro s hs
                  exact hall s (List.mem_cons_of_mem _ hs)
                · intro c hc
                  simp only [List.mem_append, List.mem_singleton]
                  rintro (hcells | rfl)
                  · exact (hnotin c (List.mem_cons_of_mem _ hc)) hcells
                  · exact hnd.1 hc
            constructor
            · rw [ihiff, htrans]
            · intro hrhs
              have hr := ihimp (htrans.mpr hrhs)
              rw [hr, hfm]
              rw [List.append_assoc]
              rfl

/-- C8 counterexample: the malformed line consisting of the single numeric
token 5 makes readCoordinates hit the out-of-range access coords[1] - a
runtime panic, not a returned error - and the malformed line of three
tokens 1 2 3 is accepted with no error at all, yielding the cell (1, 2). -/
theorem readCoordinates_error_claim_false :
    readCoordinates ["5"] = ReadResult.indexPanic ∧
    readCoordinates ["5"] ≠ ReadResult.err ∧
    readCoordinates ["1 2 3"] = ReadResult.ok [⟨1, 2⟩] ∧
    readCoordinates ["1 2 3"] ≠ ReadResult.err := by
  refine ⟨by decide, by decide, by decide, by decide⟩

/-- C8 amended: readCoordinates succeeds exactly when every line's first
two space-separated tokens parse as (64-bit range) integers and no parsed
pair repeats; in that case it returns exactly the listed coordinates in
order.  Divergences from the original claim: a line whose first token
parses but which has no second token causes an index-out-of-range panic
rather than a returned error, and tokens beyond the second are ignored, so
a line such as 1 2 3 is accepted. -/
theorem readCoordinates_amended (lines : List String) :
    ((readCoordinates lines).isOk = true ↔
      ((∀ l ∈ lines, (lineCell l).isSome = true) ∧
       (lines.filterMap lineCell).Nodup)) ∧
    (((∀ l ∈ lines, (lineCell l).isSome = true) ∧
      (lines.filterMap lineCell).Nodup) →
      readCoordinates lines = ReadResult.ok (lines.filterMap lineCell)) := by
  obtain ⟨hiff, himp⟩ := readCoordinatesAux_spec lines []
  constructor
  · unfold readCoordinates
    rw [hiff]
    simp
  · intro h
    unfold readCoordinates
    have := himp ⟨h.1, h.2, by simp⟩
    simpa using this

/-- C8 witness: two well-formed lines parse into two cells without error. -/
theorem readCoordinates_amended_witness :
    ((∀ l ∈ (["0 0", "1 1"] : List String), (lineCell l).isSome = true) ∧
      ((["0 0", "1 1"] : List String).filterMap lineCell).Nodup) ∧
    readCoordinates ["0 0", "1 1"] =
      ReadResult.ok ((["0 0", "1 1"] : List String).filterMap lineCell) :=
  ⟨⟨by decide, by decide⟩,
    (readCoordinates_amended ["0 0", "1 1"]).2 ⟨by decide, by decide⟩⟩

theorem digitChar_inj_lt : ∀ a < 10, ∀ b < 10, Nat.digitChar a = Nat.digitChar b → a = b := by
  decide

theorem digitChar_ne_comma_dash : ∀ d < 10, Nat.digitChar d ≠ ',' ∧ Nat.digitChar d ≠ '-' := by
  decide

theorem map_digitChar_inj :
    ∀ (l₁ l₂ : List Nat), (∀ d ∈ l₁, d < 10) → (∀ d ∈ l₂, d < 10) →
      l₁.map Nat.digitChar = l₂.map Nat.digitChar → l₁ = l₂ := by
  intro l₁
  induction l₁ with
  | nil =>
    intro l₂ _ _ h
    cases l₂ with
    | nil => rfl
    | cons b t => simp at h
  | cons a t ih =>
    intro l₂ hb₁ hb₂ h
    cases l₂ with
    | nil => simp at h
    | cons b t₂ =>
      simp only [List.map_cons, List.cons.injEq] at h
      have ha : a = b :=
        digitChar_inj_lt a (hb₁ a (List.mem_cons_self _ _))
          b (hb₂ b (List.mem_cons_self _ _)) h.1
      have ht : t = t₂ :=
        ih t₂ (fun d hd => hb₁ d (List.mem_cons_of_mem _ hd))
          (fun d hd => hb₂ d (List.mem_cons_of_mem _ hd)) h.2
      rw [ha, ht]

theorem natToString_data_chars (n : Nat) :
    ∀ c ∈ (natToString n).data, ∃ d, d < 10 ∧ c = Nat.digitChar d := by
  unfold natToString
  split
  · intro c hc
    refine ⟨0, by omega, ?_⟩
    have : c = '0' := by simpa using hc
    rw [this]
    rfl
  · intro c hc
    have hc' : c ∈ ((Nat.digits 10 n).reverse).map Nat.digitChar := hc
    rw [List.mem_map] at hc'
    obtain ⟨d, hd, rfl⟩ := hc'
    rw [List.mem_reverse] at hd
    exact ⟨d, Nat.digits_lt_base (by omega) hd, rfl⟩

theorem natToString_data_ne_nil (n : Nat) : (natToString n).data ≠ [] := by
  unfold natToString
  split
  · simp
  · next h =>
    have hd : Nat.digits 10 n ≠ [] := Nat.digits_ne_nil_iff_ne_zero.mpr h
    intro heq
    apply hd
    have h1 : ((Nat.digits 10 n).reverse).map Nat.digitChar = [] := heq
    have h2 : (Nat.digits 10 n).reverse = [] := List.map_eq_nil_iff.mp h1
    simpa using h2

theorem natToString_data_inj (m n : Nat)
    (h : (natToString m).data = (natToString n).data) : m = n := by
  have hten : (1 : Nat) < 10 := by omega
  unfold natToString at h
  by_cases hm : m = 0 <;> by_cases hn : n = 0
  · omega
  · rw [if_pos hm, if_neg hn] at h
    exfalso
    have h' : List.map Nat.digitChar [0] = List.map Nat.digitChar ((Nat.digits 10 n).reverse) := by
      simpa using h
    have := map_digitChar_inj [0] ((Nat.digits 10 n).reverse) (by simp)
      (fun d hd => Nat.digits_lt_base hten (List.mem_reverse.mp hd)) h'
    have hdig : Nat.digits 10 n = [0] := by
      have hrev := congrArg List.reverse this
      simpa using hrev.symm
    have := Nat.ofDigits_digits 10 n
    rw [hdig] at this
    simp [Nat.ofDigits] at this
    exact hn this.symm
  · rw [if_neg hm, if_pos hn] at h
    exfalso
    have h' : List.map Nat.digitChar ((Nat.digits 10 m).reverse) = List.map Nat.digitChar [0] := by
      simpa using h
    have := map_digitChar_inj ((Nat.digits 10 m).reverse) [0]
      (fun d hd => Nat.digits_lt_base hten (List.mem_reverse.mp hd)) (by simp) h'
    have hdig : Nat.digits 10 m = [0] := by
      have hrev := congrArg List.reverse this
      simpa using hrev
    have := Nat.ofDigits_digits 10 m
    rw [hdig] at this
    simp [Nat.ofDigits] at this
    exact hm this.symm
  · rw [if_neg hm, if_neg hn] at h
    have h' : ((Nat.digits 10 m).reverse).map Nat.digitChar =
        ((Nat.digits 10 n).reverse).map Nat.digitChar := h
    have := map_digitChar_inj _ _
      (fun d hd => Nat.digits_lt_base hten (List.mem_reverse.mp hd))
      (fun d hd => Nat.digits_lt_base hten (List.mem_reverse.mp hd)) h'
    have hdig : Nat.digits 10 m = Nat.digits 10 n := by
      have hrev := congrArg List.reverse this
      simpa using hrev
    have hm' := Nat.ofDigits_digits 10 m
    have hn' := Nat.ofDigits_digits 10 n
    rw [hdig] at hm'
    exact hm'.symm.trans hn'

theorem intToString_data_no_comma (n : Int) : ',' ∉ (intToString n).data := by
  unfold intToString
  split
  · rw [String.data_append]
    intro hmem
    rcases List.mem_append.mp hmem with h | h
    · simp at h
    · obtain ⟨d, hd, heq⟩ := natToString_data_chars _ _ h
      exact (digitChar_ne_comma_dash d hd).1 heq.symm
  · intro hmem
    obtain ⟨d, hd, heq⟩ := natToString_data_chars _ _ hmem
    exact (digitChar_ne_comma_dash d hd).1 heq.symm

theorem intToString_data_inj (a b : Int)
    (h : (intToString a).data = (intToString b).data) : a = b := by
  unfold intToString at h
  by_cases ha : a < 0 <;> by_cases hb : b < 0
  · rw [if_pos ha, if_pos hb, String.data_append, String.data_append] at h
    have h' : (natToString a.natAbs).data = (natToString b.natAbs).data := by
      simpa using h
    have := natToString_data_inj _ _ h'
    omega
  · rw [if_pos ha, if_neg hb, String.data_append] at h
    exfalso
    obtain ⟨c, t, hct⟩ := List.exists_cons_of_ne_nil (natToString_data_ne_nil b.toNat)
    rw [hct] at h
    have h' : '-' :: (natToString a.natAbs).data = c :: t := h
    injection h' with h1 _
    obtain ⟨d, hd, heq⟩ := natToString_data_chars b.toNat c
      (by rw [hct]; exact List.mem_cons_self _ _)
    exact (digitChar_ne_comma_dash d hd).2 (by rw [← heq, ← h1])
  · rw [if_neg ha, if_pos hb, String.data_append] at h
    exfalso
    obtain ⟨c, t, hct⟩ := List.exists_cons_of_ne_nil (natToString_data_ne_nil a.toNat)
    rw [hct] at h
    have h' : c :: t = '-' :: (natToString b.natAbs).data := h
    injection h' with h1 _
    obtain ⟨d, hd, heq⟩ := natToString_data_chars a.toNat c
      (by rw [hct]; exact List.mem_cons_self _ _)
    exact (digitChar_ne_comma_dash d hd).2 (by rw [← heq, h1])
  · rw [if_neg ha, if_neg hb] at h
    have := natToString_data_inj _ _ h
    omega

theorem split_at_comma :
    ∀ (l₁ : List Char) (r₁ : List Char) (l₂ r₂ : List Char), ',' ∉ l₁ → ',' ∉ l₂ →
      l₁ ++ ',' :: r₁ = l₂ ++ ',' :: r₂ → l₁ = l₂ ∧ r₁ = r₂ := by
  intro l₁
  induction l₁ with
  | nil =>
    intro r₁ l₂ r₂ _ hc₂ h
    cases l₂ with
    | nil =>
      simp at h
      exact ⟨rfl, h⟩
    | cons b t =>
      exfalso
      simp only [List.nil_append, List.cons_append, List.cons.injEq] at h
      exact hc₂ (h.1 ▸ List.mem_cons_self _ _)
  | cons a t ih =>
    intro r₁ l₂ r₂ hc₁ hc₂ h
    cases l₂ with
    | nil =>
      exfalso
      simp only [List.cons_append, List.nil_append, List.cons.injEq] at h
      exact hc₁ (h.1 ▸ List.mem_cons_self _ _)
    | cons b t₂ =>
      simp only [List.cons_append, List.cons.injEq] at h
      have := ih r₁ t₂ r₂ (fun hm => hc₁ (List.mem_cons_of_mem _ hm))
        (fun hm => hc₂ (List.mem_cons_of_mem _ hm)) h.2
      exact ⟨by rw [h.1, this.1], this.2⟩

theorem getCellKey_data (x y : Int) :
    (getCellKey x y).data = (intToString x).data ++ ',' :: (intToString y).data := by
  unfold getCellKey
  rw [String.data_append, String.data_append]
  simp

/-- C10: the string key fmt.Sprintf("%d,%d", x, y) used by the generation
map is injective on integer coordinate pairs: two coordinates produce the
same key exactly when they are equal, so the string-keyed map faithfully
represents a set of cells with no collision. -/
theorem getCellKey_injective (x₁ y₁ x₂ y₂ : Int) :
    getCellKey x₁ y₁ = getCellKey x₂ y₂ ↔ (x₁ = x₂ ∧ y₁ = y₂) := by
  constructor
  · intro h
    have hd := congrArg String.data h
    rw [getCellKey_data, getCellKey_data] at hd
    obtain ⟨h1, h2⟩ := split_at_comma _ _ _ _
      (intToString_data_no_comma x₁) (intToString_data_no_comma x₂) hd
    exact ⟨intToString_data_inj _ _ h1, intToString_data_inj _ _ h2⟩
  · rintro ⟨rfl, rfl⟩
    rfl
